import Mathlib

/-!
Verification of the tmpfiles-audit tool (Go).

The repository is a small Go program that reads tmpfiles.d-style
configuration files, checks that every symlink declaration's target
(explicit or factory default) exists, tracks the directories that
contain linked-to targets, and checks those directories for
completeness against the observed directory listing and a set of
ignore rules.

The source ships three near-duplicate revisions of the same script.
The definitions below embed the latest revision (the second half of
src/main.go: the one with resolveTargetPath, the `L?` and `L+`
directive handling, and /proc and /run in the base-directory list).
Filesystem state is an explicit input (a stat oracle and a readDir
oracle); every filesystem interaction of the program is recorded in
an effect trace.
-/

namespace TmpfilesAudit

/-! ### Character classes

`regexWs` is the RE2 character class backslash-s used by the line
regex: tab, newline, form feed, carriage return, and space (RE2's
Perl class is ASCII-only and does not include vertical tab).

`unicodeIsSpace` is Go's unicode.IsSpace, used by strings.TrimSpace
and strings.Fields: the White_Space property. -/

def regexWs (c : Char) : Bool :=
  c = ' ' || c = '\t' || c = '\n' || c = Char.ofNat 12 || c = '\r'

def nonWsChar (c : Char) : Bool :=
  !(regexWs c)

def qmChar (c : Char) : Bool :=
  c = '?' || c = '+'

def unicodeIsSpace (c : Char) : Bool :=
  let n := c.toNat
  (9 ≤ n && n ≤ 13) || n = 32 || n = 0x85 || n = 0xA0 || n = 0x1680 ||
    (0x2000 ≤ n && n ≤ 0x200A) || n = 0x2028 || n = 0x2029 || n = 0x202F ||
    n = 0x205F || n = 0x3000

/-! ### Go strings primitives (on lists of characters) -/

/-- strings.HasPrefix on character lists. -/
def startsWithL (s pre : List Char) : Bool :=
  pre.isPrefixOf s

/-- strings.TrimPrefix on character lists: drop `pre` when it is a
leading segment of `s`, otherwise return `s` unchanged. -/
def stripStartL (s pre : List Char) : List Char :=
  if startsWithL s pre then s.drop pre.length else s

/-- strings.TrimSpace: drop unicode whitespace from both ends. -/
def trimSpaceL (s : List Char) : List Char :=
  ((s.dropWhile unicodeIsSpace).reverse.dropWhile unicodeIsSpace).reverse

/-- strings.Trim with a one-character cutset: drop that character from
both ends (all occurrences, not just one). -/
def trimCharL (c : Char) (s : List Char) : List Char :=
  ((s.dropWhile (· = c)).reverse.dropWhile (· = c)).reverse

/-- strings.Contains: `sub` occurs as a segment of `s`. -/
def containsSubL (s sub : List Char) : Bool :=
  if sub.isPrefixOf s then true
  else
    match s with
    | [] => false
    | _ :: t => containsSubL t sub

/-- strings.Fields, fuelled helper: the fuel only serves structural
termination and is never exhausted when it starts at the length of the
list (each step consumes at least one character). -/
def goFieldsAux : Nat → List Char → List (List Char)
  | _, [] => []
  | 0, _ :: _ => []
  | n + 1, c :: rest =>
    if unicodeIsSpace c then goFieldsAux n rest
    else (c :: rest.takeWhile (fun x => !unicodeIsSpace x)) ::
      goFieldsAux n (rest.dropWhile (fun x => !unicodeIsSpace x))

/-- strings.Fields: split around runs of unicode whitespace. -/
def goFieldsL (s : List Char) : List (List Char) :=
  goFieldsAux s.length s

/-! ### Go path/filepath primitives (Unix rules) -/

/-- filepath.Clean, helper: process one path component against the
component stack.  Empty components and "." are dropped; ".." pops a
non-".." top when possible, is dropped at the root, and is kept when
the path is relative and there is nothing to pop. -/
def cleanStep (rooted : Bool) (stack : List (List Char)) (part : List Char) :
    List (List Char) :=
  if part = [] || part = ['.'] then stack
  else if part = ['.', '.'] then
    match stack.getLast? with
    | some top => if top = ['.', '.'] then stack ++ [part] else stack.dropLast
    | none => if rooted then stack else [part]
  else stack ++ [part]

/-- filepath.Clean on character lists (Unix): the lexical
shortest-equivalent-path algorithm. -/
def goCleanL (s : List Char) : List Char :=
  if s = [] then ['.']
  else
    let rooted := s.head? = some '/'
    let parts := s.splitOn '/'
    let stack := parts.foldl (cleanStep rooted) []
    if stack = [] then (if rooted then ['/'] else ['.'])
    else (if rooted then ['/'] else []) ++ (List.intercalate ['/'] stack)

/-- filepath.IsAbs (Unix): begins with a slash. -/
def goIsAbsL (s : List Char) : Bool :=
  s.head? = some '/'

/-- filepath.Join of two elements: Go joins the non-empty elements with
a slash and Cleans the result; all-empty input yields the empty path. -/
def goJoinL (a b : List Char) : List Char :=
  if a ≠ [] then goCleanL (a ++ '/' :: b)
  else if b ≠ [] then goCleanL b
  else []

/-- filepath.Dir (Unix): everything up to and including the final
slash, Cleaned; a path without a slash has directory ".". -/
def goDirL (s : List Char) : List Char :=
  goCleanL ((s.reverse.dropWhile (· ≠ '/')).reverse)

/-- filepath.Base (Unix): strip trailing slashes, then keep the part
after the final slash; empty input gives "." and an all-slash path
gives "/". -/
def goBaseL (s : List Char) : List Char :=
  if s = [] then ['.']
  else
    let s1 := (s.reverse.dropWhile (· = '/')).reverse
    let s2 := (s1.reverse.takeWhile (· ≠ '/')).reverse
    if s2 = [] then ['/'] else s2

/-! ### String wrappers -/

def goStartsWith (s pre : String) : Bool := startsWithL s.data pre.data

def goStripStart (s pre : String) : String := ⟨stripStartL s.data pre.data⟩

def goTrimSpace (s : String) : String := ⟨trimSpaceL s.data⟩

def goContains (s sub : String) : Bool := containsSubL s.data sub.data

def goFields (s : String) : List String := (goFieldsL s.data).map List.asString

def goClean (s : String) : String := ⟨goCleanL s.data⟩

def goIsAbs (s : String) : Bool := goIsAbsL s.data

def goJoin (a b : String) : String := ⟨goJoinL a.data b.data⟩

def goDir (s : String) : String := ⟨goDirL s.data⟩

def goBase (s : String) : String := ⟨goBaseL s.data⟩

/-- cleanQuotes: TrimSpace, then strip surrounding double quotes, then
surrounding single quotes. -/
def cleanQuotes (s : String) : String :=
  ⟨trimCharL '\x27' (trimCharL '"' (trimSpaceL s.data))⟩

/-! ### The line regex

The later revision's pattern, anchored at both ends:
  caret L [backslash-? backslash-+]* bs-s+ ([^bs-s]+) bs-s+ [^bs-s]*
  bs-s+ [^bs-s]* bs-s+ [^bs-s]* bs-s+ (.*) dollar
Go's regexp chooses submatches with leftmost-first (backtracking)
preference: an earlier greedy quantifier keeps the longest length for
which the remainder of the pattern can still match.  The combinators
below implement exactly that preference, specialized to this pattern.
FindStringSubmatch on a caret-anchored pattern returns the submatches
of that match, or nil when there is none. -/

/-- Try the continuation after dropping `i` characters, for `i` from
`n` down to `0`, keeping the first success (greedy preference). -/
def tryLens (k : List Char → Option α) (s : List Char) : Nat → Option α
  | 0 => k s
  | n + 1 =>
    match k (s.drop (n + 1)) with
    | some r => some r
    | none => tryLens k s n

/-- Greedy star over a character class. -/
def starM (p : Char → Bool) (k : List Char → Option α) (s : List Char) :
    Option α :=
  tryLens k s (s.takeWhile p).length

/-- Greedy plus over a character class. -/
def plusM (p : Char → Bool) (k : List Char → Option α) (s : List Char) :
    Option α :=
  match s with
  | [] => none
  | c :: rest => if p c then starM p k rest else none

/-- As `tryLens`, passing the consumed segment to the continuation. -/
def tryLensCap (k : List Char → List Char → Option α) (s : List Char) :
    Nat → Option α
  | 0 => k [] s
  | n + 1 =>
    match k (s.take (n + 1)) (s.drop (n + 1)) with
    | some r => some r
    | none => tryLensCap k s n

/-- Greedy capturing plus over a character class. -/
def plusCapM (p : Char → Bool) (k : List Char → List Char → Option α)
    (s : List Char) : Option α :=
  match s with
  | [] => none
  | c :: rest =>
    if p c then tryLensCap (fun cap s2 => k (c :: cap) s2) rest
      (rest.takeWhile p).length
    else none

/-- The anchored line regex on character lists, returning the two
capture groups (symlink path, remainder holding placeholders and
target).  The dot in `(.*)` matches anything except a newline, and
the dollar anchor is end of text. -/
def lineRegexMatchL (l : List Char) : Option (List Char × List Char) :=
  match l with
  | 'L' :: rest =>
    starM qmChar (fun s1 =>
      plusM regexWs (fun s2 =>
        plusCapM nonWsChar (fun g1 s3 =>
          plusM regexWs (fun s4 =>
            starM nonWsChar (fun s5 =>
              plusM regexWs (fun s6 =>
                starM nonWsChar (fun s7 =>
                  plusM regexWs (fun s8 =>
                    starM nonWsChar (fun s9 =>
                      plusM regexWs (fun s10 =>
                        if s10.all (fun c => c ≠ '\n') then some (g1, s10)
                        else none) s9) s8) s7) s6) s5) s4) s3) s2) s1) rest
  | _ => none

/-- lineRegex.FindStringSubmatch, as the pair of capture groups. -/
def lineRegexMatch (l : String) : Option (String × String) :=
  (lineRegexMatchL l.data).map (fun pr => (⟨pr.1⟩, ⟨pr.2⟩))

/-! ### Program data model

The filesystem is an input oracle: `stat` tells whether a path exists
(os.Stat returns a nil error), `readDir` gives the entries of a
directory or `none` when os.ReadDir fails.  Every filesystem
interaction the program performs is recorded as an `FsOp`; the type
also has constructors for the mutating operations the program could
have performed but never does. -/

structure DirEntry where
  name : String
  isDir : Bool
deriving DecidableEq

structure Fs where
  stat : String → Bool
  readDir : String → Option (List DirEntry)

inductive FsOp where
  | globOp (pat : String)
  | openReadOp (path : String)
  | statOp (path : String)
  | readDirOp (path : String)
  | createSymlinkOp (target path : String)
  | removeOp (path : String)
  | writeFileOp (path : String)
deriving DecidableEq

def FsOp.isReadOnly : FsOp → Bool
  | .globOp _ => true
  | .openReadOp _ => true
  | .statOp _ => true
  | .readDirOp _ => true
  | .createSymlinkOp _ _ => false
  | .removeOp _ => false
  | .writeFileOp _ => false

/-- The linkedDirs map: directory to the set of linked base names,
with map-like unique keys and idempotent insertion. -/
abbrev LinkedDirs := List (String × List String)

def ldInsert (ld : LinkedDirs) (dir name : String) : LinkedDirs :=
  match ld with
  | [] => [(dir, [name])]
  | (d, ns) :: rest =>
    if d = dir then (d, if name ∈ ns then ns else ns ++ [name]) :: rest
    else (d, ns) :: ldInsert rest dir name

/-- A configuration or ignore file as discovered by Glob: the file
name and its scanned lines, or `none` when os.Open fails. -/
structure NamedFile where
  name : String
  content : Option (List String)

/-! ### The program's functions (latest revision) -/

/-- factoryTarget: the factory-default location of a path.  Paths
whose base name is "etc" or that begin with "/etc/" map under the
factory etc tree, likewise for var; all others have "/usr/share/factory"
prepended. -/
def factoryTarget (path : String) : String :=
  let filename := goBase path
  if filename = "etc" || goStartsWith path "/etc/" then
    "/usr/share/factory/etc/" ++ goStripStart path "/etc/"
  else if filename = "var" || goStartsWith path "/var/" then
    "/usr/share/factory/var/" ++ goStripStart path "/var/"
  else "/usr/share/factory" ++ path

/-- resolveTargetPath: an absolute target is returned as-is, a
relative one is joined to the symlink's directory and Cleaned. -/
def resolveTargetPath (symlinkPath target : String) : String :=
  if goIsAbs target then target
  else goClean (goJoin (goDir symlinkPath) target)

/-- isBaseDir, latest revision: the base system directories (the
earlier revisions lack /proc and /run). -/
def isBaseDir (dir : String) : Bool :=
  ["/etc", "/var", "/usr", "/bin", "/sbin", "/lib", "/lib64", "/proc",
    "/run"].contains dir

/-- The directive of a line: "L?" marks the target optional, "L+"
requests recreation (which only prints a note). -/
def lineOptional (line : String) : Bool :=
  line.data.take 2 = ['L', '?']

/-- The target extracted from the second capture group: the final
whitespace-separated field, quote-stripped; empty when there is none. -/
def extractTarget (targetField : String) : String :=
  match (goFields targetField).getLast? with
  | some f => cleanQuotes f
  | none => ""

structure LineResult where
  err : Bool
  ld : LinkedDirs
  trace : List FsOp
deriving DecidableEq

/-- processLine of the latest revision.  A line not starting with "L",
or not matching the regex, is skipped.  An empty or "-" target is
checked at its factory-default location, and (unless that check
returns the error) the factory target's directory is tracked.  An
explicit target is resolved and checked; its directory is tracked only
when it exists.  A missing target is an error unless the line is
optional ("L?").  The "L+" recreate flag only prints a note. -/
def processLine (fs : Fs) (line : String) (ld : LinkedDirs) : LineResult :=
  if !goStartsWith line "L" then ⟨false, ld, []⟩
  else
    let targetOptional := lineOptional line
    match lineRegexMatch line with
    | none => ⟨false, ld, []⟩
    | some (path, targetField) =>
      let target := extractTarget targetField
      if target = "" || target = "-" then
        let ft := factoryTarget path
        if fs.stat ft || targetOptional then
          let dir := goDir ft
          let ld' := if isBaseDir dir then ld else ldInsert ld dir (goBase ft)
          ⟨false, ld', [.statOp ft]⟩
        else ⟨true, ld, [.statOp ft]⟩
      else
        let rt := resolveTargetPath path target
        if fs.stat rt then
          let dir := goDir rt
          let ld' := if isBaseDir dir then ld else ldInsert ld dir (goBase rt)
          ⟨false, ld', [.statOp rt]⟩
        else if targetOptional then ⟨false, ld, [.statOp rt]⟩
        else ⟨true, ld, [.statOp rt]⟩

/-- loadIgnoreFiles: collect the non-empty, non-comment trimmed lines
of every readable ignore file into a set; unreadable files are
skipped. -/
def loadIgnoreFiles (ignoreSrc : List NamedFile) : List String × List FsOp :=
  ignoreSrc.foldl
    (fun acc f =>
      match f.content with
      | none => (acc.1, acc.2 ++ [.openReadOp f.name])
      | some ls =>
        (ls.foldl
          (fun ig raw =>
            let line := goTrimSpace raw
            if line = "" || goStartsWith line "#" then ig
            else if line ∈ ig then ig else ig ++ [line]) acc.1,
          acc.2 ++ [.openReadOp f.name]))
    ([], [.globOp "/usr/share/tmpfiles.d/*.ignore"])

/-- The skip condition of the completeness check and the summary in
the latest revision: version-control internals and degenerate
directory names are exempt. -/
def skipDir (dir : String) : Bool :=
  goContains dir "/.git" || dir = "." || dir = ".."

/-- The names a directory is missing: its non-directory entries that
are neither ignored (by full path) nor linked (by base name). -/
def dirMissing (ignored : List String) (files : List String) (dir : String)
    (entries : List DirEntry) : List String :=
  (entries.filter (fun e =>
    !e.isDir && !(ignored.contains (goJoin dir e.name)) &&
      !(files.contains e.name))).map (fun e => e.name)

structure CheckResult where
  reported : List String
  hadError : Bool
  trace : List FsOp

/-- The body of the completeness-check loop over one tracked entry. -/
def checkStep (fs : Fs) (ignored : List String) (acc : CheckResult)
    (p : String × List String) : CheckResult :=
  if skipDir p.1 then acc
  else
    match fs.readDir p.1 with
    | none => { acc with trace := acc.trace ++ [.readDirOp p.1] }
    | some entries =>
      if dirMissing ignored p.2 p.1 entries = [] then
        { acc with trace := acc.trace ++ [.readDirOp p.1] }
      else
        { reported := acc.reported ++ [p.1], hadError := true,
          trace := acc.trace ++ [.readDirOp p.1] }

/-- checkDirectoryCompleteness: every tracked directory that is not
skipped and can be listed is reported when it is missing files;
the function errs exactly when some directory was reported. -/
def checkDirectoryCompleteness (fs : Fs) (ld : LinkedDirs)
    (ignored : List String) : CheckResult :=
  ld.foldl (checkStep fs ignored) ⟨[], false, []⟩

/-- The filesystem reads performed by printSummary (its output is
print-only; the reads are the only interactions). -/
def summaryTrace (ld : LinkedDirs) : List FsOp :=
  ld.foldl (fun acc p => if skipDir p.1 then acc else acc ++ [.readDirOp p.1]) []

/-! ### main (latest revision) -/

structure LoopState where
  errFlag : Bool
  ld : LinkedDirs
  trace : List FsOp

/-- The body of main's scanner loop: trim the line, skip empties and
comments, hand lines that start with "L" to processLine, recording its
error in the exit flag. -/
def lineStep (fs : Fs) (st : LoopState) (raw : String) : LoopState :=
  let line := goTrimSpace raw
  if line = "" || goStartsWith line "#" then st
  else if goStartsWith line "L" then
    let r := processLine fs line st.ld
    ⟨st.errFlag || r.err, r.ld, st.trace ++ r.trace⟩
  else st

/-- The body of main's file loop: an unopenable configuration file
sets the exit flag; otherwise every scanned line is processed. -/
def fileStep (fs : Fs) (st : LoopState) (f : NamedFile) : LoopState :=
  match f.content with
  | none => ⟨true, st.ld, st.trace ++ [.openReadOp f.name]⟩
  | some ls =>
    ls.foldl (lineStep fs) ⟨st.errFlag, st.ld, st.trace ++ [.openReadOp f.name]⟩

/-- The state after the configuration-file loop, from the initial
empty state (the Glob of the fixed valid pattern cannot fail). -/
def confLoopState (fs : Fs) (confFiles : List NamedFile) : LoopState :=
  confFiles.foldl (fileStep fs) ⟨false, [], [.globOp "/usr/lib/tmpfiles.d/*.conf"]⟩

structure RunResult where
  exitCode : Nat
  ld : LinkedDirs
  check : CheckResult
  trace : List FsOp

/-- The whole run of main: process every configuration file, load the
ignore rules, run the completeness check, print the summary, and exit
with 1 when a file failed to open, a line erred, or the check erred. -/
def mainRun (fs : Fs) (confFiles ignoreSrc : List NamedFile) : RunResult :=
  let st := confLoopState fs confFiles
  let ig := loadIgnoreFiles ignoreSrc
  let chk := checkDirectoryCompleteness fs st.ld ig.1
  { exitCode := if st.errFlag || chk.hadError then 1 else 0,
    ld := st.ld,
    check := chk,
    trace := st.trace ++ ig.2 ++ chk.trace ++ summaryTrace st.ld }

/-! ### Shared lemmas -/

/-- The error component of processLine does not depend on the
linkedDirs accumulator. -/
theorem processLine_err_indep (fs : Fs) (line : String) (ld ld' : LinkedDirs) :
    (processLine fs line ld).err = (processLine fs line ld').err := by
  unfold processLine
  split
  · rfl
  · split
    · rfl
    · dsimp only
      split
      · split <;> rfl
      · split
        · rfl
        · split <;> rfl

/-- A line the regex accepts begins with the directive character. -/
theorem lineRegexMatch_startsWith (line : String) (pr : String × String)
    (h : lineRegexMatch line = some pr) : goStartsWith line "L" = true := by
  unfold lineRegexMatch lineRegexMatchL at h
  unfold goStartsWith startsWithL
  match hd : line.data with
  | [] => rw [hd] at h; exact absurd h (by simp)
  | c :: rest =>
    rw [hd] at h
    by_cases hc : c = 'L'
    · subst hc; simp [List.isPrefixOf]
    · exfalso
      have : (match c :: rest with
        | 'L' :: rest => starM qmChar (fun s1 =>
            plusM regexWs (fun s2 =>
              plusCapM nonWsChar (fun g1 s3 =>
                plusM regexWs (fun s4 =>
                  starM nonWsChar (fun s5 =>
                    plusM regexWs (fun s6 =>
                      starM nonWsChar (fun s7 =>
                        plusM regexWs (fun s8 =>
                          starM nonWsChar (fun s9 =>
                            plusM regexWs (fun s10 =>
                              if s10.all (fun c => c ≠ '\n') then some (g1, s10)
                              else none) s9) s8) s7) s6) s5) s4) s3) s2) s1) rest
        | _ => (none : Option (List Char × List Char))) = none := by
        split
        · next heq => cases heq; exact absurd rfl hc
        · rfl
      rw [this] at h
      exact absurd h (by simp)

/-! ### Claim C3: the factory-default resolver

The claim says the resolver is decided purely by path prefix.  The
code also routes a path whose base name is "etc" (or "var") into the
factory etc (or var) tree, even when the path has no such prefix, so
the claim as stated fails on "/foo/etc". -/

/-- C3 counterexample: "/foo/etc" has neither the "/etc/" nor the
"/var/" prefix, so by the claim it should resolve to
"/usr/share/factory/foo/etc"; the code instead routes it through the
etc branch because its base name is "etc". -/
theorem factoryTarget_not_purely_by_prefix :
    goStartsWith "/foo/etc" "/etc/" = false ∧
    goStartsWith "/foo/etc" "/var/" = false ∧
    factoryTarget "/foo/etc" ≠ "/usr/share/factory" ++ "/foo/etc" ∧
    factoryTarget "/foo/etc" = "/usr/share/factory/etc//foo/etc" := by
  refine ⟨by decide, by decide, ?_, by decide⟩
  decide

/-- The amended resolver rule, written from the claim's words as
corrected: a path with the "/etc/" prefix, or whose final path
component is "etc", resolves under the factory etc tree with the
"/etc/" prefix (when present) removed; analogously for var; every
other path has "/usr/share/factory" prepended. -/
def factoryTargetSpec (p : String) : String :=
  if goStartsWith p "/etc/" || goBase p = "etc" then
    "/usr/share/factory/etc/" ++ goStripStart p "/etc/"
  else if goStartsWith p "/var/" || goBase p = "var" then
    "/usr/share/factory/var/" ++ goStripStart p "/var/"
  else "/usr/share/factory" ++ p

/-- C3 amended: the factory-default resolver is decided by path prefix
or base name, as described by `factoryTargetSpec`. -/
theorem factoryTarget_eq_spec (p : String) :
    factoryTarget p = factoryTargetSpec p := by
  unfold factoryTarget factoryTargetSpec
  simp only [Bool.or_comm]

/-- A prefix test is equivalent to equality with the corresponding
take. -/
theorem startsWithL_iff_take (s pre : List Char) :
    startsWithL s pre = true ↔ s.take pre.length = pre := by
  unfold startsWithL
  rw [List.isPrefixOf_iff_prefix]
  constructor
  · intro h
    obtain ⟨t, ht⟩ := h
    subst ht
    simp
  · intro h
    refine ⟨s.drop pre.length, ?_⟩
    nth_rewrite 1 [← h]
    exact List.take_append_drop pre.length s

/-- An "L?" line starts with "L". -/
theorem optional_startsWith_L (line : String)
    (h : goStartsWith line "L?" = true) : goStartsWith line "L" = true := by
  unfold goStartsWith at h ⊢
  rw [startsWithL_iff_take] at h ⊢
  have hdata : line.data.take 2 = ['L', '?'] := h
  match hd : line.data with
  | [] => rw [hd] at hdata; exact absurd hdata (by simp)
  | c :: rest =>
    rw [hd] at hdata
    simp only [List.take_succ_cons, List.take_zero] at hdata ⊢
    have : c = 'L' := by
      have := congrArg (fun l => l.head?) hdata
      simpa using this
    simp [this]

/-- The optional flag of an "L?" line is set. -/
theorem optional_of_startsWith (line : String)
    (h : goStartsWith line "L?" = true) : lineOptional line = true := by
  unfold goStartsWith at h
  rw [startsWithL_iff_take] at h
  have h2 : line.data.take 2 = ['L', '?'] := h
  unfold lineOptional
  simp [h2]

/-! ### Claim C10: an "L" line the regex rejects is skipped silently

processLine returns no error for it, leaves linkedDirs untouched, and
performs no filesystem operation, so it cannot change the exit code. -/

/-- C10: a line that begins with the directive but does not match the
line regex leaves processLine's state exactly as it was: no error, no
linkedDirs change, no filesystem access. -/
theorem unmatched_L_line_skipped (fs : Fs) (ld : LinkedDirs) (line : String)
    (h1 : goStartsWith line "L" = true) (h2 : lineRegexMatch line = none) :
    processLine fs line ld = ⟨false, ld, []⟩ := by
  unfold processLine
  rw [h1, h2]
  rfl

/-- A filesystem on which nothing exists and no directory lists. -/
def fsEmpty : Fs := ⟨fun _ => false, fun _ => none⟩

/-- C10 witness: "Lx" begins with the directive, fails the regex, and
is skipped without any effect. -/
theorem unmatched_L_line_skipped_witness :
    goStartsWith "Lx" "L" = true ∧ lineRegexMatch "Lx" = none ∧
      processLine fsEmpty "Lx" [("/a", ["b"])] = ⟨false, [("/a", ["b"])], []⟩ :=
  ⟨by decide, by decide,
    unmatched_L_line_skipped fsEmpty [("/a", ["b"])] "Lx" (by decide) (by decide)⟩

/-! ### Claim C8: an optional ("L?") declaration never errors

Whatever the filesystem says, processLine returns nil for a line whose
trimmed form starts with "L?", and main's loop body keeps the exit
flag unchanged on such a line. -/

/-- C8: an optional declaration's missing target is only warned about:
processLine reports no error for any line starting with "L?", and the
scanner-loop step preserves the error flag on any raw line whose
trimmed form starts with "L?". -/
theorem optional_line_cannot_fail (fs : Fs) (raw : String)
    (h : goStartsWith (goTrimSpace raw) "L?" = true) :
    (∀ ld, (processLine fs (goTrimSpace raw) ld).err = false) ∧
    (∀ st, (lineStep fs st raw).errFlag = st.errFlag) := by
  have herr : ∀ ld, (processLine fs (goTrimSpace raw) ld).err = false := by
    intro ld
    unfold processLine
    rw [optional_startsWith_L _ h, optional_of_startsWith _ h]
    cases hm : lineRegexMatch (goTrimSpace raw) with
    | none => rfl
    | some pr =>
      obtain ⟨path, tf⟩ := pr
      simp only [Bool.not_true, Bool.false_eq_true, if_false]
      split_ifs with hA hB hC hD <;> simp_all
  refine ⟨herr, fun st => ?_⟩
  simp only [lineStep]
  split
  · rfl
  · split
    · simp [herr st.ld]
    · rfl

/-- C8 witness: the optional line "L? /x - - - /missing" has a missing
target on the empty filesystem, yet processLine returns no error and
the loop step leaves the error flag clear. -/
theorem optional_line_cannot_fail_witness :
    goStartsWith (goTrimSpace "L? /x - - - /missing") "L?" = true ∧
    (processLine fsEmpty (goTrimSpace "L? /x - - - /missing") []).err = false ∧
    (lineStep fsEmpty ⟨false, [], []⟩ "L? /x - - - /missing").errFlag = false :=
  ⟨by decide,
    (optional_line_cannot_fail fsEmpty "L? /x - - - /missing" (by decide)).1 [],
    (optional_line_cannot_fail fsEmpty "L? /x - - - /missing" (by decide)).2
      ⟨false, [], []⟩⟩

/-! ### Claim C9: base system directories are never tracked

processLine guards every linkedDirs insertion with the isBaseDir
check, so no base system directory ever becomes a key of linkedDirs,
and hence none is ever examined by the completeness check or the
summary (both iterate over linkedDirs). -/

/-- Keys of an insertion: the inserted directory or an existing key. -/
theorem ldInsert_keys (ld : LinkedDirs) (dir name : String) :
    ∀ q ∈ ldInsert ld dir name, q.1 = dir ∨ q.1 ∈ ld.map Prod.fst := by
  induction ld with
  | nil =>
    intro q hq
    unfold ldInsert at hq
    simp at hq
    simp [hq]
  | cons p rest ih =>
    intro q hq
    unfold ldInsert at hq
    by_cases hd : p.1 = dir
    · rw [if_pos hd] at hq
      rcases List.mem_cons.mp hq with h | h
      · left; rw [h]; exact hd
      · right; simp [List.mem_cons.mpr (Or.inr (List.mem_map_of_mem Prod.fst h))]
    · rw [if_neg hd] at hq
      rcases List.mem_cons.mp hq with h | h
      · right; rw [h]; simp
      · rcases ih q h with h1 | h1
        · left; exact h1
        · right; simp [h1]

/-- processLine only ever adds a key that passes the isBaseDir guard. -/
theorem processLine_keys_not_base (fs : Fs) (line : String) (ld : LinkedDirs) :
    ∀ q ∈ (processLine fs line ld).ld,
      q.1 ∈ ld.map Prod.fst ∨ isBaseDir q.1 = false := by
  intro q hq
  unfold processLine at hq
  split at hq
  · exact Or.inl (List.mem_map_of_mem Prod.fst hq)
  · split at hq
    · exact Or.inl (List.mem_map_of_mem Prod.fst hq)
    · dsimp only at hq
      split at hq
      · split at hq
        · dsimp only at hq
          split at hq
          · next hbase => exact Or.inl (List.mem_map_of_mem Prod.fst hq)
          · next hbase =>
            rcases ldInsert_keys _ _ _ q hq with h | h
            · right; rw [h]; simpa using hbase
            · exact Or.inl h
        · exact Or.inl (List.mem_map_of_mem Prod.fst hq)
      · split at hq
        · dsimp only at hq
          split at hq
          · exact Or.inl (List.mem_map_of_mem Prod.fst hq)
          · next hbase =>
            rcases ldInsert_keys _ _ _ q hq with h | h
            · right; rw [h]; simpa using hbase
            · exact Or.inl h
        · split at hq
          · exact Or.inl (List.mem_map_of_mem Prod.fst hq)
          · exact Or.inl (List.mem_map_of_mem Prod.fst hq)

/-- The no-base-key invariant survives one scanner-loop step. -/
theorem lineStep_keys_not_base (fs : Fs) (st : LoopState) (raw : String)
    (h : ∀ q ∈ st.ld, isBaseDir q.1 = false) :
    ∀ q ∈ (lineStep fs st raw).ld, isBaseDir q.1 = false := by
  intro q hq
  simp only [lineStep] at hq
  split at hq
  · exact h q hq
  · split at hq
    · dsimp only at hq
      rcases processLine_keys_not_base fs (goTrimSpace raw) st.ld q hq with h1 | h1
      · obtain ⟨p, hp, hp1⟩ := List.mem_map.mp h1
        rw [← hp1]
        exact h p hp
      · exact h1
    · exact h q hq

/-- The no-base-key invariant survives any run of scanner-loop steps. -/
theorem foldl_lineStep_keys_not_base (fs : Fs) (ls : List String)
    (st : LoopState) (h : ∀ q ∈ st.ld, isBaseDir q.1 = false) :
    ∀ q ∈ (ls.foldl (lineStep fs) st).ld, isBaseDir q.1 = false := by
  induction ls generalizing st with
  | nil => exact h
  | cons l rest ih =>
    rw [List.foldl_cons]
    exact ih _ (lineStep_keys_not_base fs st l h)

/-- The no-base-key invariant survives a whole file. -/
theorem fileStep_keys_not_base (fs : Fs) (st : LoopState) (f : NamedFile)
    (h : ∀ q ∈ st.ld, isBaseDir q.1 = false) :
    ∀ q ∈ (fileStep fs st f).ld, isBaseDir q.1 = false := by
  unfold fileStep
  match f.content with
  | none => exact h
  | some ls => exact foldl_lineStep_keys_not_base fs ls ⟨st.errFlag, st.ld, _⟩ h

/-- The no-base-key invariant survives the whole file loop. -/
theorem foldl_fileStep_keys_not_base (fs : Fs) (files : List NamedFile)
    (st : LoopState) (h : ∀ q ∈ st.ld, isBaseDir q.1 = false) :
    ∀ q ∈ (files.foldl (fileStep fs) st).ld, isBaseDir q.1 = false := by
  induction files generalizing st with
  | nil => exact h
  | cons f rest ih =>
    rw [List.foldl_cons]
    exact ih _ (fileStep_keys_not_base fs st f h)

/-- C9: a base system directory (per the latest revision's list,
which includes /proc and /run) is never a key of the final linkedDirs
of a run, so it is never subjected to the completeness check nor
listed in the summary. -/
theorem baseDir_never_tracked (fs : Fs) (confFiles ignoreSrc : List NamedFile)
    (d : String) (h : isBaseDir d = true) :
    d ∉ (mainRun fs confFiles ignoreSrc).ld.map Prod.fst := by
  intro hmem
  have inv : ∀ q ∈ (confLoopState fs confFiles).ld, isBaseDir q.1 = false := by
    unfold confLoopState
    exact foldl_fileStep_keys_not_base fs confFiles _ (by intro q hq; simp at hq)
  obtain ⟨p, hp, hp1⟩ := List.mem_map.mp hmem
  have := inv p hp
  rw [hp1] at this
  rw [h] at this
  exact absurd this (by simp)

/-- C9 witness: "/etc" is a base directory and is not a key of the
final linkedDirs of a concrete run. -/
theorem baseDir_never_tracked_witness :
    isBaseDir "/etc" = true ∧
      "/etc" ∉ (mainRun fsEmpty [] []).ld.map Prod.fst :=
  ⟨by decide, baseDir_never_tracked fsEmpty [] [] "/etc" (by decide)⟩

/-! ### Claim C4: lines without the symlink directive are inert

The claim reads the test on the raw line, but main trims the line
before testing for the directive, so a raw line made of whitespace
followed by a symlink declaration is processed even though the raw
line does not begin with "L".  After the trim is accounted for, the
claim holds: a line whose trimmed form does not begin with "L" leaves
the loop state (error flag, linkedDirs, trace) exactly unchanged. -/

/-- C4 counterexample: the raw line " L /x - - - /m" does not begin
with "L", yet the loop step processes it and (its target being
missing) sets the error flag, which makes the exit code nonzero. -/
theorem non_L_raw_line_not_inert :
    goStartsWith " L /x - - - /m" "L" = false ∧
      (lineStep fsEmpty ⟨false, [], []⟩ " L /x - - - /m").errFlag = true := by
  constructor
  · decide
  · decide

/-- C4 amended: a configuration line whose whitespace-trimmed form
does not begin with "L" is ignored without any effect: the loop state
is returned unchanged, so nothing is added to linkedDirs, no error is
produced, and the exit code cannot change. -/
theorem trimmed_non_L_line_no_effect (fs : Fs) (st : LoopState) (raw : String)
    (h : goStartsWith (goTrimSpace raw) "L" = false) :
    lineStep fs st raw = st := by
  simp only [lineStep]
  split
  · rfl
  · simp [h]

/-- C4 amended witness: a directory directive line is left untouched
by the loop step. -/
theorem trimmed_non_L_line_no_effect_witness :
    goStartsWith (goTrimSpace "d /tmp 1777 root root") "L" = false ∧
      lineStep fsEmpty ⟨false, [("/a", ["b"])], []⟩ "d /tmp 1777 root root" =
        ⟨false, [("/a", ["b"])], []⟩ :=
  ⟨by decide,
    trimmed_non_L_line_no_effect fsEmpty ⟨false, [("/a", ["b"])], []⟩
      "d /tmp 1777 root root" (by decide)⟩

/-! ### Claim C6: explicit targets are checked at the resolved path

For a declaration with an explicit target (neither empty nor "-"),
the path handed to os.Stat is resolveTargetPath: the target itself
when absolute, and otherwise the cleaned join of the directory of the
symlink path with the target. -/

/-- C6: on a line the regex parses to (path, targetField) whose
extracted target is explicit, processLine's only filesystem access is
a stat of resolveTargetPath, which is the target unchanged when
absolute and the cleaned join of Dir(path) with the target when
relative. -/
theorem explicit_target_checked_at_resolved (fs : Fs) (ld : LinkedDirs)
    (line path tf : String) (hm : lineRegexMatch line = some (path, tf))
    (ht1 : extractTarget tf ≠ "") (ht2 : extractTarget tf ≠ "-") :
    (processLine fs line ld).trace =
      [FsOp.statOp (resolveTargetPath path (extractTarget tf))] ∧
    (goIsAbs (extractTarget tf) = true →
      resolveTargetPath path (extractTarget tf) = extractTarget tf) ∧
    (goIsAbs (extractTarget tf) = false →
      resolveTargetPath path (extractTarget tf) =
        goClean (goJoin (goDir path) (extractTarget tf))) := by
  refine ⟨?_, ?_, ?_⟩
  · unfold processLine
    rw [lineRegexMatch_startsWith _ _ hm, hm]
    simp only [Bool.not_true, Bool.false_eq_true, if_false]
    rw [if_neg (by simp [ht1, ht2])]
    split_ifs <;> rfl
  · intro h
    unfold resolveTargetPath
    rw [h]
    rfl
  · intro h
    unfold resolveTargetPath
    rw [h]
    rfl

/-- C6 witness: the line "L /etc/foo - - - ../bar" has the relative
target "../bar", and processLine checks it at "/bar", the cleaned
join of "/etc" with "../bar". -/
theorem explicit_target_checked_at_resolved_witness :
    lineRegexMatch "L /etc/foo - - - ../bar" = some ("/etc/foo", "../bar") ∧
    extractTarget "../bar" ≠ "" ∧ extractTarget "../bar" ≠ "-" ∧
    (processLine fsEmpty "L /etc/foo - - - ../bar" []).trace =
      [FsOp.statOp (resolveTargetPath "/etc/foo" (extractTarget "../bar"))] :=
  ⟨by decide, by decide, by decide,
    (explicit_target_checked_at_resolved fsEmpty [] "L /etc/foo - - - ../bar"
      "/etc/foo" "../bar" (by decide) (by decide) (by decide)).1⟩

/-! ### Claim C1: the directory-completeness check

The claim says every tracked directory is reported as incomplete
exactly when it holds a non-ignored, non-linked, non-directory entry.
The latest revision exempts directories containing "/.git" (and the
names "." and ".."), and any directory whose listing fails, so such a
directory is never reported even when incomplete; with those
exemptions stated, the biconditional holds. -/

/-- Whether the completeness check reports a given tracked entry. -/
def dirReported (fs : Fs) (ignored : List String) (p : String × List String) :
    Bool :=
  if skipDir p.1 then false
  else
    match fs.readDir p.1 with
    | none => false
    | some entries => !(dirMissing ignored p.2 p.1 entries = [])

/-- One check step changes the reported list by the `dirReported`
entries and the error flag by their presence. -/
theorem checkStep_characterization (fs : Fs) (ignored : List String)
    (acc : CheckResult) (p : String × List String) :
    (checkStep fs ignored acc p).reported =
      acc.reported ++ (if dirReported fs ignored p then [p.1] else []) ∧
    (checkStep fs ignored acc p).hadError =
      (acc.hadError || dirReported fs ignored p) := by
  unfold checkStep dirReported
  by_cases hs : skipDir p.1
  · simp [hs]
  · rw [if_neg hs, if_neg hs]
    cases hrd : fs.readDir p.1 with
    | none => simp
    | some entries =>
      by_cases hm : dirMissing ignored p.2 p.1 entries = []
      · simp [hm]
      · simp [hm]

/-- The reported list of the completeness-check loop accumulates
exactly the tracked entries satisfying `dirReported`, in order, and
the error flag records their presence. -/
theorem check_foldl_characterization (fs : Fs) (ignored : List String)
    (ld : LinkedDirs) (acc : CheckResult) :
    (ld.foldl (checkStep fs ignored) acc).reported =
      acc.reported ++ (ld.filter (dirReported fs ignored)).map Prod.fst ∧
    (ld.foldl (checkStep fs ignored) acc).hadError =
      (acc.hadError || ld.any (dirReported fs ignored)) := by
  induction ld generalizing acc with
  | nil => simp
  | cons p rest ih =>
    rw [List.foldl_cons, List.any_cons, List.filter_cons]
    obtain ⟨ihr, ihe⟩ := ih (checkStep fs ignored acc p)
    obtain ⟨hr, he⟩ := checkStep_characterization fs ignored acc p
    constructor
    · rw [ihr, hr]
      by_cases hd : dirReported fs ignored p
      · simp [hd]
      · simp [hd]
    · rw [ihe, he]
      by_cases hd : dirReported fs ignored p
      · simp [hd]
      · simp [hd]

/-- In a list with map-unique keys, entries agree when their keys do. -/
theorem keys_nodup_eq (ld : LinkedDirs) (hnd : (ld.map Prod.fst).Nodup)
    (a b : String × List String) (ha : a ∈ ld) (hb : b ∈ ld)
    (h : a.1 = b.1) : a = b := by
  induction ld with
  | nil => exact absurd ha (by simp)
  | cons p rest ih =>
    rw [List.map_cons, List.nodup_cons] at hnd
    rcases List.mem_cons.mp ha with ha1 | ha1 <;>
      rcases List.mem_cons.mp hb with hb1 | hb1
    · rw [ha1, hb1]
    · exfalso
      apply hnd.1
      rw [← ha1, h]
      exact List.mem_map_of_mem Prod.fst hb1
    · exfalso
      apply hnd.1
      rw [hb1] at h
      rw [← h]
      exact List.mem_map_of_mem Prod.fst ha1
    · exact ih hnd.2 ha1 hb1

/-- C1 counterexample filesystem: one unlisted file under a tracked
".git" directory. -/
def fsGit : Fs :=
  ⟨fun _ => false,
    fun d => if d = "/opt/.git" then some [⟨"b", false⟩] else none⟩

/-- C1 counterexample: the tracked directory "/opt/.git" has a
non-directory entry "b" that is neither ignored nor linked, yet the
completeness check reports nothing and returns no error, because the
latest revision skips directories containing "/.git". -/
theorem completeness_claim_cex :
    ("/opt/.git", ["a"]) ∈ ([("/opt/.git", ["a"])] : LinkedDirs) ∧
    fsGit.readDir "/opt/.git" = some [⟨"b", false⟩] ∧
    (∃ e ∈ [(⟨"b", false⟩ : DirEntry)], e.isDir = false ∧
      (([] : List String).contains (goJoin "/opt/.git" e.name)) = false ∧
      (["a"].contains e.name) = false) ∧
    (checkDirectoryCompleteness fsGit [("/opt/.git", ["a"])] []).hadError
      = false ∧
    (checkDirectoryCompleteness fsGit [("/opt/.git", ["a"])] []).reported
      = [] := by
  refine ⟨by decide, by decide, ⟨⟨"b", false⟩, by decide⟩, by decide, by decide⟩

/-- C1 amended: for every tracked directory that is not exempt (its
path does not contain "/.git" and is not "." or "..") and whose
listing succeeds, the completeness check reports it exactly when some
non-directory entry is neither in the ignore set (by the full path,
dir joined with name) nor recorded as a linked file (by base name);
and the check errs exactly when some directory is reported. -/
theorem completeness_reports_iff (fs : Fs) (ld : LinkedDirs)
    (ignored : List String) (dir : String) (files : List String)
    (entries : List DirEntry) (hmem : (dir, files) ∈ ld)
    (hnd : (ld.map Prod.fst).Nodup) (hskip : skipDir dir = false)
    (hrd : fs.readDir dir = some entries) :
    (dir ∈ (checkDirectoryCompleteness fs ld ignored).reported ↔
      ∃ e ∈ entries, e.isDir = false ∧
        ignored.contains (goJoin dir e.name) = false ∧
        files.contains e.name = false) ∧
    ((checkDirectoryCompleteness fs ld ignored).hadError = true ↔
      (checkDirectoryCompleteness fs ld ignored).reported ≠ []) := by
  have hchar := check_foldl_characterization fs ignored ld ⟨[], false, []⟩
  have hrep' : (checkDirectoryCompleteness fs ld ignored).reported =
      (ld.filter (dirReported fs ignored)).map Prod.fst := by
    unfold checkDirectoryCompleteness
    rw [hchar.1]
    rfl
  have herr' : (checkDirectoryCompleteness fs ld ignored).hadError =
      ld.any (dirReported fs ignored) := by
    unfold checkDirectoryCompleteness
    rw [hchar.2]
    rfl
  constructor
  · rw [hrep']
    have hthis : dirReported fs ignored (dir, files) = true ↔
        ∃ e ∈ entries, e.isDir = false ∧
          ignored.contains (goJoin dir e.name) = false ∧
          files.contains e.name = false := by
      unfold dirReported
      rw [if_neg (by simp [hskip])]
      dsimp only
      rw [hrd]
      unfold dirMissing
      simp only [Bool.not_eq_true', decide_eq_false_iff_not, List.map_eq_nil,
        List.filter_eq_nil]
      push_neg
      constructor
      · intro hex
        obtain ⟨e, he, hp⟩ := hex
        refine ⟨e, he, ?_⟩
        simp only [Bool.and_eq_true, Bool.not_eq_true'] at hp
        exact ⟨hp.1.1, hp.1.2, hp.2⟩
      · intro hex
        obtain ⟨e, he, h1, h2, h3⟩ := hex
        refine ⟨e, he, ?_⟩
        have h2' : goJoin dir e.name ∉ ignored := by
          simpa using h2
        have h3' : e.name ∉ files := by
          simpa using h3
        simp [h1, h2', h3']
    constructor
    · intro hmem2
      rcases List.mem_map.mp hmem2 with ⟨p, hp, hp1⟩
      have hpmem := (List.mem_filter.mp hp).1
      have hprep := (List.mem_filter.mp hp).2
      have := keys_nodup_eq ld hnd p (dir, files) hpmem hmem hp1
      rw [this] at hprep
      exact hthis.mp hprep
    · intro hex
      apply List.mem_map.mpr
      refine ⟨(dir, files), List.mem_filter.mpr ⟨hmem, hthis.mpr hex⟩, rfl⟩
  · rw [hrep', herr']
    rw [List.any_eq_true]
    constructor
    · intro ⟨p, hp, hrep2⟩
      intro hnil
      rw [List.map_eq_nil, List.filter_eq_nil] at hnil
      exact absurd hrep2 (by simpa using hnil p hp)
    · intro hne
      by_contra hnone
      push_neg at hnone
      apply hne
      rw [List.map_eq_nil, List.filter_eq_nil]
      intro p hp
      simpa using hnone p hp

/-- C1 amended witness data: a directory with one linked and one
unlinked file. -/
def entriesD : List DirEntry := [⟨"a", false⟩, ⟨"b", false⟩]

def fsD : Fs :=
  ⟨fun _ => false, fun d => if d = "/opt/d" then some entriesD else none⟩

/-- C1 amended witness: the tracked directory "/opt/d" (not exempt,
listable) is reported exactly when it holds a non-ignored, non-linked
file. -/
theorem completeness_reports_iff_witness :
    ((("/opt/d", ["a"]) ∈ ([("/opt/d", ["a"])] : LinkedDirs)) ∧
      skipDir "/opt/d" = false ∧ fsD.readDir "/opt/d" = some entriesD) ∧
    (("/opt/d" ∈
        (checkDirectoryCompleteness fsD [("/opt/d", ["a"])] []).reported ↔
      ∃ e ∈ entriesD, e.isDir = false ∧
        (([] : List String).contains (goJoin "/opt/d" e.name)) = false ∧
        (["a"].contains e.name) = false) ∧
    ((checkDirectoryCompleteness fsD [("/opt/d", ["a"])] []).hadError = true ↔
      (checkDirectoryCompleteness fsD [("/opt/d", ["a"])] []).reported ≠ [])) :=
  ⟨⟨by decide, by decide, by decide⟩,
    completeness_reports_iff fsD [("/opt/d", ["a"])] [] "/opt/d" ["a"]
      entriesD (by decide) (by decide) (by decide) (by decide)⟩

/-! ### Claim C5: the program is read-only

Every filesystem operation in the trace of a whole run is a read
(glob, open for reading, stat, or read-dir); no symlink creation,
removal, or write ever occurs, whatever the configuration says — in
particular an "L+" force-recreate declaration only prints a note. -/

/-- processLine performs only reads. -/
theorem processLine_trace_readOnly (fs : Fs) (line : String)
    (ld : LinkedDirs) :
    (processLine fs line ld).trace.all FsOp.isReadOnly = true := by
  unfold processLine
  split
  · rfl
  · split
    · rfl
    · dsimp only
      split
      · split <;> rfl
      · split
        · rfl
        · split <;> rfl

/-- A scanner-loop step appends only reads to the trace. -/
theorem lineStep_trace_readOnly (fs : Fs) (st : LoopState) (raw : String)
    (h : st.trace.all FsOp.isReadOnly = true) :
    (lineStep fs st raw).trace.all FsOp.isReadOnly = true := by
  simp only [lineStep]
  split
  · exact h
  · split
    · dsimp only
      rw [List.all_append]
      rw [h, processLine_trace_readOnly]
      rfl
    · exact h

/-- The scanner loop preserves read-only traces. -/
theorem foldl_lineStep_trace_readOnly (fs : Fs) (ls : List String)
    (st : LoopState) (h : st.trace.all FsOp.isReadOnly = true) :
    ((ls.foldl (lineStep fs) st).trace.all FsOp.isReadOnly) = true := by
  induction ls generalizing st with
  | nil => exact h
  | cons l rest ih =>
    rw [List.foldl_cons]
    exact ih _ (lineStep_trace_readOnly fs st l h)

/-- A file step appends only reads to the trace. -/
theorem fileStep_trace_readOnly (fs : Fs) (st : LoopState) (f : NamedFile)
    (h : st.trace.all FsOp.isReadOnly = true) :
    ((fileStep fs st f).trace.all FsOp.isReadOnly) = true := by
  unfold fileStep
  match f.content with
  | none =>
    rw [List.all_append, h]
    rfl
  | some ls =>
    apply foldl_lineStep_trace_readOnly
    dsimp only
    rw [List.all_append, h]
    rfl

/-- The file loop preserves read-only traces. -/
theorem foldl_fileStep_trace_readOnly (fs : Fs) (files : List NamedFile)
    (st : LoopState) (h : st.trace.all FsOp.isReadOnly = true) :
    ((files.foldl (fileStep fs) st).trace.all FsOp.isReadOnly) = true := by
  induction files generalizing st with
  | nil => exact h
  | cons f rest ih =>
    rw [List.foldl_cons]
    exact ih _ (fileStep_trace_readOnly fs st f h)

/-- Loading the ignore files performs only reads. -/
theorem loadIgnoreFiles_trace_readOnly (ignoreSrc : List NamedFile) :
    (loadIgnoreFiles ignoreSrc).2.all FsOp.isReadOnly = true := by
  unfold loadIgnoreFiles
  have gen : ∀ acc : List String × List FsOp,
      acc.2.all FsOp.isReadOnly = true →
      (ignoreSrc.foldl
        (fun acc f =>
          match f.content with
          | none => (acc.1, acc.2 ++ [.openReadOp f.name])
          | some ls =>
            (ls.foldl
              (fun ig raw =>
                let line := goTrimSpace raw
                if line = "" || goStartsWith line "#" then ig
                else if line ∈ ig then ig else ig ++ [line]) acc.1,
              acc.2 ++ [.openReadOp f.name])) acc).2.all
        FsOp.isReadOnly = true := by
    induction ignoreSrc with
    | nil => intro acc h; exact h
    | cons f rest ih =>
      intro acc h
      rw [List.foldl_cons]
      apply ih
      match f.content with
      | none =>
        rw [List.all_append, h]
        rfl
      | some ls =>
        dsimp only
        rw [List.all_append, h]
        rfl
  exact gen ([], [.globOp "/usr/share/tmpfiles.d/*.ignore"]) (by rfl)

/-- The completeness check performs only reads. -/
theorem check_trace_readOnly (fs : Fs) (ld : LinkedDirs)
    (ignored : List String) :
    (checkDirectoryCompleteness fs ld ignored).trace.all FsOp.isReadOnly
      = true := by
  unfold checkDirectoryCompleteness
  have gen : ∀ acc : CheckResult, acc.trace.all FsOp.isReadOnly = true →
      ((ld.foldl (checkStep fs ignored) acc).trace.all FsOp.isReadOnly)
        = true := by
    induction ld with
    | nil => intro acc h; exact h
    | cons p rest ih =>
      intro acc h
      rw [List.foldl_cons]
      apply ih
      unfold checkStep
      split
      · exact h
      · split
        · rw [List.all_append, h]
          rfl
        · split
          · rw [List.all_append, h]
            rfl
          · dsimp only
            rw [List.all_append, h]
            rfl
  exact gen ⟨[], false, []⟩ (by rfl)

/-- The summary performs only reads. -/
theorem summaryTrace_readOnly (ld : LinkedDirs) :
    (summaryTrace ld).all FsOp.isReadOnly = true := by
  unfold summaryTrace
  have gen : ∀ acc : List FsOp, acc.all FsOp.isReadOnly = true →
      ((ld.foldl
        (fun acc p => if skipDir p.1 then acc else acc ++ [.readDirOp p.1])
        acc).all FsOp.isReadOnly) = true := by
    induction ld with
    | nil => intro acc h; exact h
    | cons p rest ih =>
      intro acc h
      rw [List.foldl_cons]
      apply ih
      split
      · exact h
      · rw [List.all_append, h]
        rfl
  exact gen [] (by rfl)

/-- The configuration loop's trace is read-only. -/
theorem confLoopState_trace_readOnly (fs : Fs) (confFiles : List NamedFile) :
    (confLoopState fs confFiles).trace.all FsOp.isReadOnly = true := by
  unfold confLoopState
  exact foldl_fileStep_trace_readOnly fs confFiles _ (by rfl)

/-- C5: every filesystem operation of a whole run, on any filesystem
and any configuration and ignore input, is a read; the program never
creates, removes, or writes any filesystem object. -/
theorem mainRun_trace_readOnly (fs : Fs) (confFiles ignoreSrc : List NamedFile) :
    (mainRun fs confFiles ignoreSrc).trace.all FsOp.isReadOnly = true := by
  unfold mainRun
  dsimp only
  rw [List.all_append, List.all_append, List.all_append]
  rw [confLoopState_trace_readOnly, loadIgnoreFiles_trace_readOnly,
    check_trace_readOnly, summaryTrace_readOnly]
  rfl

/-! ### Claim C2: the exit code

The exit code is nonzero exactly when a configuration file cannot be
opened, some non-optional symlink declaration's target (explicit or
factory-default) does not exist, or the completeness check fails;
errors only set the flag and are reported, never recovered from.
(The initial Glob cannot fail: its pattern is a fixed well-formed
literal, and Glob errs only on malformed patterns.) -/

/-- The claim-side failure predicate for one raw configuration line:
it trims to a line the regex parses, is not optional, and its target
(factory-default when empty or "-", resolved otherwise) does not
exist. -/
def declarationFails (fs : Fs) (raw : String) : Bool :=
  let line := goTrimSpace raw
  match lineRegexMatch line with
  | none => false
  | some (path, tf) =>
    if lineOptional line then false
    else
      let target := extractTarget tf
      if target = "" || target = "-" then !fs.stat (factoryTarget path)
      else !fs.stat (resolveTargetPath path target)

/-- A line the regex rejects includes those not starting with "L". -/
theorem lineRegexMatch_none_of_not_L (line : String)
    (h : goStartsWith line "L" = false) : lineRegexMatch line = none := by
  cases hm : lineRegexMatch line with
  | none => rfl
  | some pr => rw [lineRegexMatch_startsWith line pr hm] at h; exact absurd h (by simp)

/-- The error of processLine on a trimmed line is the failure
predicate. -/
theorem processLine_err_eq (fs : Fs) (line : String) (ld : LinkedDirs) :
    (processLine fs line ld).err =
      (match lineRegexMatch line with
      | none => false
      | some (path, tf) =>
        if lineOptional line then false
        else
          let target := extractTarget tf
          if target = "" || target = "-" then !fs.stat (factoryTarget path)
          else !fs.stat (resolveTargetPath path target)) := by
  by_cases hL : goStartsWith line "L" = true
  · unfold processLine
    rw [hL]
    cases hm : lineRegexMatch line with
    | none => rfl
    | some pr =>
      obtain ⟨path, tf⟩ := pr
      simp only [Bool.not_true, Bool.false_eq_true, if_false]
      by_cases hopt : lineOptional line = true
      · rw [hopt]
        simp only [if_true]
        split_ifs <;> simp_all
      · rw [Bool.not_eq_true] at hopt
        rw [hopt]
        simp only [Bool.false_eq_true, if_false]
        split_ifs <;> simp_all
  · rw [Bool.not_eq_true] at hL
    have hm := lineRegexMatch_none_of_not_L line hL
    rw [hm]
    unfold processLine
    rw [hL]
    rfl

/-- A line starting with "#" does not start with "L". -/
theorem hash_not_L (line : String) (h : goStartsWith line "#" = true) :
    goStartsWith line "L" = false := by
  unfold goStartsWith at h ⊢
  rw [startsWithL_iff_take] at h
  have h1 : line.data.take 1 = ['#'] := h
  by_contra hc
  rw [Bool.not_eq_false, startsWithL_iff_take] at hc
  have h2 : line.data.take 1 = ['L'] := hc
  rw [h1] at h2
  exact absurd (List.head_eq_of_cons_eq h2) (by decide)

/-- One scanner step moves the error flag by the failure predicate. -/
theorem lineStep_errFlag (fs : Fs) (st : LoopState) (raw : String) :
    (lineStep fs st raw).errFlag = (st.errFlag || declarationFails fs raw) := by
  simp only [lineStep, declarationFails]
  split
  · next hc =>
    have hnone : lineRegexMatch (goTrimSpace raw) = none := by
      apply lineRegexMatch_none_of_not_L
      rcases Bool.or_eq_true _ _ |>.mp hc with h1 | h1
      · have : goTrimSpace raw = "" := by simpa using h1
        rw [this]
        decide
      · exact hash_not_L _ h1
    rw [hnone]
    simp
  · split
    · dsimp only
      rw [processLine_err_eq]
    · next hc hL =>
      have hnone : lineRegexMatch (goTrimSpace raw) = none :=
        lineRegexMatch_none_of_not_L _ (by simpa using hL)
      rw [hnone]
      simp

/-- The scanner loop accumulates the failure predicate. -/
theorem foldl_lineStep_errFlag (fs : Fs) (ls : List String) (st : LoopState) :
    (ls.foldl (lineStep fs) st).errFlag =
      (st.errFlag || ls.any (declarationFails fs)) := by
  induction ls generalizing st with
  | nil => simp
  | cons l rest ih =>
    rw [List.foldl_cons, List.any_cons, ih, lineStep_errFlag]
    rw [Bool.or_assoc]

/-- The claim-side failure predicate for one configuration file: it
cannot be opened, or some line of it fails. -/
def fileFails (fs : Fs) (f : NamedFile) : Bool :=
  match f.content with
  | none => true
  | some ls => ls.any (declarationFails fs)

/-- One file step moves the error flag by the file predicate. -/
theorem fileStep_errFlag (fs : Fs) (st : LoopState) (f : NamedFile) :
    (fileStep fs st f).errFlag = (st.errFlag || fileFails fs f) := by
  unfold fileStep fileFails
  match f.content with
  | none => simp
  | some ls => rw [foldl_lineStep_errFlag]

/-- The file loop accumulates the file predicate. -/
theorem foldl_fileStep_errFlag (fs : Fs) (files : List NamedFile)
    (st : LoopState) :
    (files.foldl (fileStep fs) st).errFlag =
      (st.errFlag || files.any (fileFails fs)) := by
  induction files generalizing st with
  | nil => simp
  | cons f rest ih =>
    rw [List.foldl_cons, List.any_cons, ih, fileStep_errFlag]
    rw [Bool.or_assoc]

/-- C2: the process exit code is nonzero exactly when a configuration
file cannot be opened, some non-optional declaration's target
(explicit or factory-default) does not exist, or the completeness
check fails on the tracked directories; otherwise the exit code is 0. -/
theorem exit_code_nonzero_iff (fs : Fs) (confFiles ignoreSrc : List NamedFile) :
    ((mainRun fs confFiles ignoreSrc).exitCode ≠ 0 ↔
      ((∃ f ∈ confFiles, f.content = none) ∨
       (∃ f ∈ confFiles, ∃ ls, f.content = some ls ∧
          ∃ raw ∈ ls, declarationFails fs raw = true) ∨
       (checkDirectoryCompleteness fs (confLoopState fs confFiles).ld
          (loadIgnoreFiles ignoreSrc).1).hadError = true)) ∧
    ((mainRun fs confFiles ignoreSrc).exitCode = 0 ∨
      (mainRun fs confFiles ignoreSrc).exitCode = 1) := by
  constructor
  · unfold mainRun
    dsimp only
    have herr : (confLoopState fs confFiles).errFlag =
        confFiles.any (fileFails fs) := by
      unfold confLoopState
      rw [foldl_fileStep_errFlag]
      rfl
    constructor
    · intro hne
      have hcond : ((confLoopState fs confFiles).errFlag ||
          (checkDirectoryCompleteness fs (confLoopState fs confFiles).ld
            (loadIgnoreFiles ignoreSrc).1).hadError) = true := by
        by_contra hc
        rw [Bool.not_eq_true] at hc
        rw [hc] at hne
        exact hne rfl
      rcases Bool.or_eq_true _ _ |>.mp hcond with h1 | h1
      · rw [herr, List.any_eq_true] at h1
        obtain ⟨f, hf, hff⟩ := h1
        unfold fileFails at hff
        cases hcontent : f.content with
        | none => exact Or.inl ⟨f, hf, hcontent⟩
        | some ls =>
          rw [hcontent] at hff
          rw [List.any_eq_true] at hff
          obtain ⟨raw, hraw, hd⟩ := hff
          exact Or.inr (Or.inl ⟨f, hf, ls, hcontent, raw, hraw, hd⟩)
      · exact Or.inr (Or.inr h1)
    · intro hor
      have hcond : ((confLoopState fs confFiles).errFlag ||
          (checkDirectoryCompleteness fs (confLoopState fs confFiles).ld
            (loadIgnoreFiles ignoreSrc).1).hadError) = true := by
        rcases hor with h1 | h1 | h1
        · apply Bool.or_eq_true _ _ |>.mpr
          left
          rw [herr, List.any_eq_true]
          obtain ⟨f, hf, hc⟩ := h1
          exact ⟨f, hf, by unfold fileFails; rw [hc]⟩
        · apply Bool.or_eq_true _ _ |>.mpr
          left
          rw [herr, List.any_eq_true]
          obtain ⟨f, hf, ls, hc, raw, hraw, hd⟩ := h1
          refine ⟨f, hf, ?_⟩
          unfold fileFails
          rw [hc, List.any_eq_true]
          exact ⟨raw, hraw, hd⟩
        · apply Bool.or_eq_true _ _ |>.mpr
          right
          exact h1
      rw [hcond]
      simp
  · unfold mainRun
    dsimp only
    split
    · right; rfl
    · left; rfl

/-! ### Claim C7: the accepted line grammar

Characterization of the set of lines the regex accepts.  The claim
reads the grammar as "the directive followed by at least five
whitespace-separated fields", but the three placeholder fields of the
pattern may be empty, so a line with only four fields after the
directive is accepted whenever a whitespace run is long enough to be
split across two of the pattern's whitespace runs. -/

/-- Success of the greedy length search, characterized. -/
theorem tryLens_isSome_iff (k : List Char → Option α) (s : List Char)
    (n : Nat) :
    (tryLens k s n).isSome = true ↔
      ∃ i, i ≤ n ∧ (k (s.drop i)).isSome = true := by
  induction n with
  | zero =>
    simp only [tryLens]
    constructor
    · intro h
      exact ⟨0, Nat.le_refl 0, by simpa using h⟩
    · intro hex
      obtain ⟨i, hi, h⟩ := hex
      have : i = 0 := Nat.le_zero.mp hi
      rw [this] at h
      simpa using h
  | succ n ih =>
    simp only [tryLens]
    cases hk : k (s.drop (n + 1)) with
    | some r =>
      simp only [Option.isSome_some, true_iff]
      exact ⟨n + 1, Nat.le_refl _, by rw [hk]; rfl⟩
    | none =>
      rw [ih]
      constructor
      · intro hex
        obtain ⟨i, hi, h⟩ := hex
        exact ⟨i, Nat.le_succ_of_le hi, h⟩
      · intro hex
        obtain ⟨i, hi, h⟩ := hex
        rcases Nat.lt_or_ge i (n + 1) with h1 | h1
        · exact ⟨i, Nat.lt_succ_iff.mp h1, h⟩
        · have : i = n + 1 := Nat.le_antisymm hi h1
          rw [this, hk] at h
          exact absurd h (by simp)

/-- Every element of a short-enough take satisfies the takeWhile
predicate. -/
theorem mem_take_of_le_takeWhile (p : Char → Bool) (s : List Char) (i : Nat)
    (hi : i ≤ (s.takeWhile p).length) : ∀ c ∈ s.take i, p c = true := by
  induction s generalizing i with
  | nil => simp
  | cons c rest ih =>
    by_cases hp : p c
    · rw [List.takeWhile_cons_of_pos hp] at hi
      cases i with
      | zero => simp
      | succ i =>
        rw [List.take_succ_cons]
        intro x hx
        rcases List.mem_cons.mp hx with h1 | h1
        · rw [h1]; exact hp
        · exact ih i (Nat.succ_le_succ_iff.mp hi) x h1
    · rw [List.takeWhile_cons_of_neg hp] at hi
      have : i = 0 := Nat.le_zero.mp (by simpa using hi)
      rw [this]
      simp

/-- A prefix of characters satisfying `p` is no longer than the
takeWhile prefix. -/
theorem all_p_length_le_takeWhile (p : Char → Bool) (a b : List Char)
    (ha : ∀ c ∈ a, p c = true) :
    a.length ≤ ((a ++ b).takeWhile p).length := by
  induction a with
  | nil => simp
  | cons c rest ih =>
    have hp : p c = true := ha c (List.mem_cons_self c rest)
    rw [List.cons_append, List.takeWhile_cons_of_pos hp]
    simp only [List.length_cons, Nat.succ_le_succ_iff]
    exact ih (fun x hx => ha x (List.mem_cons_of_mem c hx))

/-- Success of the greedy star, characterized as a split. -/
theorem starM_isSome_iff (p : Char → Bool) (k : List Char → Option α)
    (s : List Char) :
    (starM p k s).isSome = true ↔
      ∃ a b, s = a ++ b ∧ (∀ c ∈ a, p c = true) ∧ (k b).isSome = true := by
  unfold starM
  rw [tryLens_isSome_iff]
  constructor
  · intro hex
    obtain ⟨i, hi, h⟩ := hex
    exact ⟨s.take i, s.drop i, (List.take_append_drop i s).symm,
      mem_take_of_le_takeWhile p s i hi, h⟩
  · intro hex
    obtain ⟨a, b, hs, ha, hk⟩ := hex
    refine ⟨a.length, ?_, ?_⟩
    · rw [hs]
      exact all_p_length_le_takeWhile p a b ha
    · rw [hs, List.drop_left]
      exact hk

/-- Success of the greedy plus, characterized as a nonempty split. -/
theorem plusM_isSome_iff (p : Char → Bool) (k : List Char → Option α)
    (s : List Char) :
    (plusM p k s).isSome = true ↔
      ∃ a b, s = a ++ b ∧ a ≠ [] ∧ (∀ c ∈ a, p c = true) ∧
        (k b).isSome = true := by
  cases s with
  | nil =>
    simp only [plusM, Option.isSome_none, Bool.false_eq_true, false_iff]
    intro hex
    obtain ⟨a, b, hs, hne, _, _⟩ := hex
    exact hne (List.append_eq_nil.mp hs.symm).1
  | cons c rest =>
    simp only [plusM]
    by_cases hp : p c
    · rw [if_pos hp, starM_isSome_iff]
      constructor
      · intro hex
        obtain ⟨a, b, hs, ha, hk⟩ := hex
        refine ⟨c :: a, b, by rw [List.cons_append, hs], by simp, ?_, hk⟩
        intro x hx
        rcases List.mem_cons.mp hx with h1 | h1
        · rw [h1]; exact hp
        · exact ha x h1
      · intro hex
        obtain ⟨a, b, hs, hne, ha, hk⟩ := hex
        cases a with
        | nil => exact absurd rfl hne
        | cons a0 a1 =>
          rw [List.cons_append] at hs
          have h0 : c = a0 := (List.cons.injEq _ _ _ _ ▸ hs).1
          have h1 : rest = a1 ++ b := (List.cons.injEq _ _ _ _ ▸ hs).2
          exact ⟨a1, b, h1, fun x hx => ha x (List.mem_cons_of_mem a0 hx), hk⟩
    · rw [if_neg hp]
      simp only [Option.isSome_none, Bool.false_eq_true, false_iff]
      intro hex
      obtain ⟨a, b, hs, hne, ha, _⟩ := hex
      cases a with
      | nil => exact hne rfl
      | cons a0 a1 =>
        rw [List.cons_append] at hs
        have h0 : c = a0 := (List.cons.injEq _ _ _ _ ▸ hs).1
        apply hp
        rw [h0]
        exact ha a0 (List.mem_cons_self a0 a1)

/-- Success of the capturing length search, characterized. -/
theorem tryLensCap_isSome_iff (k : List Char → List Char → Option α)
    (s : List Char) (n : Nat) :
    (tryLensCap k s n).isSome = true ↔
      ∃ i, i ≤ n ∧ (k (s.take i) (s.drop i)).isSome = true := by
  induction n with
  | zero =>
    simp only [tryLensCap]
    constructor
    · intro h
      exact ⟨0, Nat.le_refl 0, by simpa using h⟩
    · intro hex
      obtain ⟨i, hi, h⟩ := hex
      have : i = 0 := Nat.le_zero.mp hi
      rw [this] at h
      simpa using h
  | succ n ih =>
    simp only [tryLensCap]
    cases hk : k (s.take (n + 1)) (s.drop (n + 1)) with
    | some r =>
      simp only [Option.isSome_some, true_iff]
      exact ⟨n + 1, Nat.le_refl _, by rw [hk]; rfl⟩
    | none =>
      rw [ih]
      constructor
      · intro hex
        obtain ⟨i, hi, h⟩ := hex
        exact ⟨i, Nat.le_succ_of_le hi, h⟩
      · intro hex
        obtain ⟨i, hi, h⟩ := hex
        rcases Nat.lt_or_ge i (n + 1) with h1 | h1
        · exact ⟨i, Nat.lt_succ_iff.mp h1, h⟩
        · have : i = n + 1 := Nat.le_antisymm hi h1
          rw [this, hk] at h
          exact absurd h (by simp)

/-- Success of the capturing greedy plus, characterized. -/
theorem plusCapM_isSome_iff (p : Char → Bool)
    (k : List Char → List Char → Option α) (s : List Char) :
    (plusCapM p k s).isSome = true ↔
      ∃ a b, s = a ++ b ∧ a ≠ [] ∧ (∀ c ∈ a, p c = true) ∧
        (k a b).isSome = true := by
  cases s with
  | nil =>
    simp only [plusCapM, Option.isSome_none, Bool.false_eq_true, false_iff]
    intro hex
    obtain ⟨a, b, hs, hne, _, _⟩ := hex
    exact hne (List.append_eq_nil.mp hs.symm).1
  | cons c rest =>
    simp only [plusCapM]
    by_cases hp : p c
    · rw [if_pos hp, tryLensCap_isSome_iff]
      constructor
      · intro hex
        obtain ⟨i, hi, h⟩ := hex
        refine ⟨c :: rest.take i, rest.drop i,
          by rw [List.cons_append, List.take_append_drop], by simp, ?_, h⟩
        intro x hx
        rcases List.mem_cons.mp hx with h1 | h1
        · rw [h1]; exact hp
        · exact mem_take_of_le_takeWhile p rest i hi x h1
      · intro hex
        obtain ⟨a, b, hs, hne, ha, hk⟩ := hex
        cases a with
        | nil => exact absurd rfl hne
        | cons a0 a1 =>
          rw [List.cons_append] at hs
          have h0 : c = a0 := (List.cons.injEq _ _ _ _ ▸ hs).1
          have h1 : rest = a1 ++ b := (List.cons.injEq _ _ _ _ ▸ hs).2
          refine ⟨a1.length, ?_, ?_⟩
          · rw [h1]
            exact all_p_length_le_takeWhile p a1 b
              (fun x hx => ha x (List.mem_cons_of_mem a0 hx))
          · rw [h1]
            show (k (c :: (a1 ++ b).take a1.length)
              ((a1 ++ b).drop a1.length)).isSome = true
            rw [List.take_left, List.drop_left, h0]
            exact hk
    · rw [if_neg hp]
      simp only [Option.isSome_none, Bool.false_eq_true, false_iff]
      intro hex
      obtain ⟨a, b, hs, hne, ha, _⟩ := hex
      cases a with
      | nil => exact hne rfl
      | cons a0 a1 =>
        rw [List.cons_append] at hs
        have h0 : c = a0 := (List.cons.injEq _ _ _ _ ▸ hs).1
        apply hp
        rw [h0]
        exact ha a0 (List.mem_cons_self a0 a1)

/-- The inner anchor step of the pattern: the captured remainder must
reach the end of the text without crossing a newline. -/
theorem isSome_noNL (g1 s10 : List Char) :
    (if s10.all (fun c => c ≠ '\n') then some (g1, s10)
      else (none : Option (List Char × List Char))).isSome = true ↔
      ∀ c ∈ s10, c ≠ '\n' := by
  split
  · next hcond =>
    simp only [Option.isSome_some, true_iff]
    intro c hc
    simpa using List.all_eq_true.mp hcond c hc
  · next hcond =>
    simp only [Option.isSome_none, Bool.false_eq_true, false_iff]
    intro hall
    apply hcond
    rw [List.all_eq_true]
    intro c hc
    simpa using hall c hc

/-- A line whose first character is not the directive never matches. -/
theorem lineRegexMatchL_ne_L (c : Char) (rest : List Char) (hc : c ≠ 'L') :
    lineRegexMatchL (c :: rest) = none := by
  unfold lineRegexMatchL
  split
  · next heq =>
    rw [List.cons.injEq] at heq
    exact absurd heq.1 hc
  · rfl

/-- The grammar the regex accepts, written out from the pattern: the
directive, any run of question marks and pluses, then five whitespace
runs, the first followed by the nonempty symlink-path field, the next
three by possibly-empty placeholder fields, and the newline-free
remainder captured as the target field. -/
def LineGrammar (l : String) : Prop :=
  ∃ q w1 f1 w2 f2 w3 f3 w4 f4 w5 r : List Char,
    l.data =
      'L' :: (q ++ w1 ++ f1 ++ w2 ++ f2 ++ w3 ++ f3 ++ w4 ++ f4 ++ w5 ++ r) ∧
    (∀ c ∈ q, qmChar c = true) ∧
    w1 ≠ [] ∧ (∀ c ∈ w1, regexWs c = true) ∧
    f1 ≠ [] ∧ (∀ c ∈ f1, nonWsChar c = true) ∧
    w2 ≠ [] ∧ (∀ c ∈ w2, regexWs c = true) ∧
    (∀ c ∈ f2, nonWsChar c = true) ∧
    w3 ≠ [] ∧ (∀ c ∈ w3, regexWs c = true) ∧
    (∀ c ∈ f3, nonWsChar c = true) ∧
    w4 ≠ [] ∧ (∀ c ∈ w4, regexWs c = true) ∧
    (∀ c ∈ f4, nonWsChar c = true) ∧
    w5 ≠ [] ∧ (∀ c ∈ w5, regexWs c = true) ∧
    (∀ c ∈ r, c ≠ '\n')

/-- C7 amended: a line is accepted as a symlink declaration exactly
when it decomposes along the regex pattern `LineGrammar`; because the
placeholder fields may be empty, this is weaker than requiring five
whitespace-separated fields after the directive. -/
theorem lineRegex_accepts_iff (l : String) :
    (∃ pr, lineRegexMatch l = some pr) ↔ LineGrammar l := by
  have hiso : (∃ pr, lineRegexMatch l = some pr) ↔
      (lineRegexMatchL l.data).isSome = true := by
    unfold lineRegexMatch
    cases h : lineRegexMatchL l.data <;> simp [h]
  rw [hiso]
  cases hd : l.data with
  | nil =>
    have hnone : lineRegexMatchL ([] : List Char) = none := rfl
    rw [hnone]
    simp only [Option.isSome_none, Bool.false_eq_true, false_iff]
    intro hg
    obtain ⟨q, w1, f1, w2, f2, w3, f3, w4, f4, w5, r, heq, _⟩ := hg
    rw [hd] at heq
    exact absurd heq (by simp)
  | cons c rest =>
    by_cases hc : c = 'L'
    · subst hc
      have hred : lineRegexMatchL ('L' :: rest) =
          starM qmChar (fun s1 =>
            plusM regexWs (fun s2 =>
              plusCapM nonWsChar (fun g1 s3 =>
                plusM regexWs (fun s4 =>
                  starM nonWsChar (fun s5 =>
                    plusM regexWs (fun s6 =>
                      starM nonWsChar (fun s7 =>
                        plusM regexWs (fun s8 =>
                          starM nonWsChar (fun s9 =>
                            plusM regexWs (fun s10 =>
                              if s10.all (fun c => c ≠ '\n') then
                                some (g1, s10)
                              else none) s9) s8) s7) s6) s5) s4) s3) s2) s1)
            rest := rfl
      rw [hred]
      simp only [starM_isSome_iff, plusM_isSome_iff, plusCapM_isSome_iff,
        isSome_noNL]
      unfold LineGrammar
      constructor
      · intro hg
        obtain ⟨q, t1, ht1, hq, w1, t2, ht2, hw1ne, hw1, f1, t3, ht3, hf1ne,
          hf1, w2, t4, ht4, hw2ne, hw2, f2, t5, ht5, hf2, w3, t6, ht6, hw3ne,
          hw3, f3, t7, ht7, hf3, w4, t8, ht8, hw4ne, hw4, f4, t9, ht9, hf4,
          w5, r, ht10, hw5ne, hw5, hr⟩ := hg
        refine ⟨q, w1, f1, w2, f2, w3, f3, w4, f4, w5, r, ?_, hq, hw1ne, hw1,
          hf1ne, hf1, hw2ne, hw2, hf2, hw3ne, hw3, hf3, hw4ne, hw4, hf4,
          hw5ne, hw5, hr⟩
        rw [hd, ht1, ht2, ht3, ht4, ht5, ht6, ht7, ht8, ht9, ht10]
        simp [List.append_assoc]
      · intro hg
        obtain ⟨q, w1, f1, w2, f2, w3, f3, w4, f4, w5, r, heq, hq, hw1ne, hw1,
          hf1ne, hf1, hw2ne, hw2, hf2, hw3ne, hw3, hf3, hw4ne, hw4, hf4,
          hw5ne, hw5, hr⟩ := hg
        rw [hd] at heq
        rw [List.cons.injEq] at heq
        have hrest := heq.2
        refine ⟨q, w1 ++ (f1 ++ (w2 ++ (f2 ++ (w3 ++ (f3 ++ (w4 ++ (f4 ++
          (w5 ++ r)))))))), ?_, hq,
          w1, f1 ++ (w2 ++ (f2 ++ (w3 ++ (f3 ++ (w4 ++ (f4 ++ (w5 ++ r))))))),
          rfl, hw1ne, hw1,
          f1, w2 ++ (f2 ++ (w3 ++ (f3 ++ (w4 ++ (f4 ++ (w5 ++ r)))))),
          rfl, hf1ne, hf1,
          w2, f2 ++ (w3 ++ (f3 ++ (w4 ++ (f4 ++ (w5 ++ r))))),
          rfl, hw2ne, hw2,
          f2, w3 ++ (f3 ++ (w4 ++ (f4 ++ (w5 ++ r)))), rfl, hf2,
          w3, f3 ++ (w4 ++ (f4 ++ (w5 ++ r))), rfl, hw3ne, hw3,
          f3, w4 ++ (f4 ++ (w5 ++ r)), rfl, hf3,
          w4, f4 ++ (w5 ++ r), rfl, hw4ne, hw4,
          f4, w5 ++ r, rfl, hf4,
          w5, r, rfl, hw5ne, hw5, hr⟩
        rw [hrest]
        simp [List.append_assoc]
    · rw [lineRegexMatchL_ne_L c rest hc]
      simp only [Option.isSome_none, Bool.false_eq_true, false_iff]
      intro hg
      obtain ⟨q, w1, f1, w2, f2, w3, f3, w4, f4, w5, r, heq, _⟩ := hg
      rw [hd] at heq
      rw [List.cons.injEq] at heq
      exact hc heq.1

/-- C7 counterexample: the line "L a b c  d" (two spaces before "d")
has only four whitespace-separated fields after the directive, yet the
regex accepts it (the double space supplies two of the pattern's
whitespace runs around an empty placeholder), and processLine treats
it as a declaration whose target "d" is checked and found missing. -/
theorem line_grammar_claim_cex :
    lineRegexMatch "L a b c  d" = some ("a", "d") ∧
    goFields "L a b c  d" = ["L", "a", "b", "c", "d"] ∧
    (processLine fsEmpty "L a b c  d" []).err = true := by
  refine ⟨by decide, by decide, by decide⟩

end TmpfilesAudit
